import Mathlib

/-!
Shallow embedding of the log-analyzer program (src/main.rs) and proofs of
its specified properties.  Strings are modelled as `List Char`; the store
(`LogAnalyzer`) is a structure holding the ordered entry sequence; file
contents are modelled as an optional list of lines (`none` = the path does
not exist); OS-level read/write failures are outside the embedding.
-/

/-- Model of Rust `char::is_whitespace` (the Unicode White_Space property:
U+0009..U+000D, U+0020, U+0085, U+00A0, U+1680, U+2000..U+200A, U+2028,
U+2029, U+202F, U+205F, U+3000). -/
def rustIsWhitespace (c : Char) : Bool :=
  (9 ≤ c.toNat && c.toNat ≤ 13) || c.toNat == 32 || c.toNat == 0x85 ||
  c.toNat == 0xA0 || c.toNat == 0x1680 ||
  (0x2000 ≤ c.toNat && c.toNat ≤ 0x200A) || c.toNat == 0x2028 ||
  c.toNat == 0x2029 || c.toNat == 0x202F || c.toNat == 0x205F ||
  c.toNat == 0x3000

/-- Model of Rust `str::trim`: removes leading and trailing characters
satisfying `char::is_whitespace`. -/
def trim (s : List Char) : List Char :=
  (((s.dropWhile rustIsWhitespace).reverse.dropWhile rustIsWhitespace)).reverse

/-- ASCII lowercase of one character, as in Rust `u8::to_ascii_lowercase` /
`char::to_ascii_lowercase`: shift `A`..`Z` down into `a`..`z`, leave
everything else unchanged. -/
def toAsciiLower (c : Char) : Char :=
  if 'A' ≤ c ∧ c ≤ 'Z' then Char.ofNat (c.toNat + 32) else c

/-- ASCII fragment of the Unicode lowercase mapping, applied characterwise.
This is not a model of the full Rust `str::to_lowercase` (whose table has
non-ASCII and context-dependent mappings); it only provides a concrete
executable instantiation for the `lower` parameter of `searchWith`, and it
agrees with `str::to_lowercase` on ASCII data. -/
def to_lowercase_ascii (s : List Char) : List Char := s.map toAsciiLower

/-- Model of Rust `str::eq_ignore_ascii_case`: equality after ASCII
case-folding both sides (equivalent to the source's same-length pairwise
comparison, since the fold is characterwise). -/
def eq_ignore_ascii_case (a b : List Char) : Bool :=
  a.map toAsciiLower == b.map toAsciiLower

/-- Split a list at the first occurrence of `sep`: `none` if `sep` does not
occur, otherwise the part before the separator and the remainder after it
(the separator itself is discarded). -/
def splitOnceChar (sep : Char) : List Char → Option (List Char × List Char)
  | [] => none
  | c :: cs =>
      if c = sep then some ([], cs)
      else
        match splitOnceChar sep cs with
        | none => none
        | some (a, r) => some (c :: a, r)

/-- Model of Rust `line.splitn(3, sep)`: at most three parts, split at the
first two occurrences of `sep`; the third part keeps any further
separators verbatim. -/
def splitn3 (sep : Char) (s : List Char) : List (List Char) :=
  match splitOnceChar sep s with
  | none => [s]
  | some (a, rest) =>
      match splitOnceChar sep rest with
      | none => [a, rest]
      | some (b, rest2) => [a, b, rest2]

/-- Model of Rust `p.is_prefix_of`-style check used to realise substring
search: is `p` an initial segment of `l`? -/
def isPrefixOfL : List Char → List Char → Bool
  | [], _ => true
  | _ :: _, [] => false
  | a :: as, b :: bs => a == b && isPrefixOfL as bs

/-- Model of Rust `str::contains` (substring containment): `pat` occurs as a
contiguous segment of `hay`. -/
def containsSub (hay pat : List Char) : Bool :=
  match hay with
  | [] => pat.isEmpty
  | _ :: rest => isPrefixOfL pat hay || containsSub rest pat

/-- One log record: `LogEntry { timestamp, level, message }` from
src/main.rs. -/
structure LogEntry where
  timestamp : List Char
  level : List Char
  message : List Char
deriving DecidableEq

/-- Model of `LogEntry::from_line`: split into at most three parts on the
first two `|`, and succeed exactly when three parts result, trimming each
part. -/
def LogEntry.from_line (line : List Char) : Option LogEntry :=
  match splitn3 '|' line with
  | [t, l, m] => some ⟨trim t, trim l, trim m⟩
  | _ => none

/-- Model of `LogEntry::to_line`: `format!("{}|{}|{}", ...)` with no
escaping. -/
def LogEntry.to_line (e : LogEntry) : List Char :=
  e.timestamp ++ '|' :: e.level ++ '|' :: e.message

/-- The in-memory store: `LogAnalyzer { entries: Vec<LogEntry> }`. -/
structure LogAnalyzer where
  entries : List LogEntry
deriving DecidableEq

/-- Model of `LogAnalyzer::load_from_file`.  The file is an optional list of
already-read lines (`none` when the path does not exist, in which case the
code skips the whole read and returns `Ok(())`); when it exists, each line
that parses is pushed onto the end of `entries`, in file order.  OS-level
read errors are outside the embedding, so no content produces `Except.error`. -/
def LogAnalyzer.load_from_file (st : LogAnalyzer) (file : Option (List (List Char))) :
    Except String LogAnalyzer :=
  match file with
  | none => Except.ok st
  | some lines =>
      Except.ok ⟨lines.foldl
        (fun es line =>
          match LogEntry.from_line line with
          | some entry => es ++ [entry]
          | none => es) st.entries⟩

/-- Model of `LogAnalyzer::filter_by_level`. -/
def LogAnalyzer.filter_by_level (st : LogAnalyzer) (level : List Char) : List LogEntry :=
  st.entries.filter (fun e => eq_ignore_ascii_case e.level level)

/-- Model of `LogAnalyzer::search`, with the Unicode lowercase function as an
explicit parameter: the source lower-cases the query once with
`str::to_lowercase` and keeps the entries whose lower-cased message contains
it as a substring.  The full Unicode lowercase table (including its
context-dependent sigma rule) is not reproduced in the embedding, so the
theorems about search quantify over `lower` and therefore hold in particular
for the program's actual lowercase function. -/
def searchWith (lower : List Char → List Char) (st : LogAnalyzer)
    (query : List Char) : List LogEntry :=
  st.entries.filter (fun e => containsSub (lower e.message) (lower query))

/-- The search operation instantiated with the ASCII lowercase fragment;
this executable instance feeds the store-passing wrapper and the concrete
witnesses. -/
def LogAnalyzer.search (st : LogAnalyzer) (query : List Char) : List LogEntry :=
  searchWith to_lowercase_ascii st query

/-- One step of `get_statistics`'s loop: `*stats.entry(level).or_insert(0) += 1`,
on an association-list model of the `HashMap` (iteration order of the map is
unspecified in the source; only the per-key counts are meaningful). -/
def statUpsert : List (List Char × Nat) → List Char → List (List Char × Nat)
  | [], k => [(k, 1)]
  | (k', v) :: rest, k =>
      if k' = k then (k', v + 1) :: rest else (k', v) :: statUpsert rest k

/-- Model of `LogAnalyzer::get_statistics`: fold every entry's level into
the map. -/
def LogAnalyzer.get_statistics (st : LogAnalyzer) : List (List Char × Nat) :=
  st.entries.foldl (fun stats e => statUpsert stats e.level) []

/-- Value stored under key `q` in the association-list map, 0 when absent
(matching a `HashMap` lookup with a default of 0). -/
def lookupCount : List (List Char × Nat) → List Char → Nat
  | [], _ => 0
  | (k, v) :: rest, q => if k = q then v else lookupCount rest q

/-- Model of `LogAnalyzer::count_total`. -/
def LogAnalyzer.count_total (st : LogAnalyzer) : Nat :=
  st.entries.length

/-- Model of `LogAnalyzer::get_recent`: drop everything before the computed
start index. -/
def LogAnalyzer.get_recent (st : LogAnalyzer) (count : Nat) : List LogEntry :=
  st.entries.drop (if st.entries.length > count then st.entries.length - count else 0)

/-- Model of `LogAnalyzer::clear`. -/
def LogAnalyzer.clear (_ : LogAnalyzer) : LogAnalyzer := ⟨[]⟩

/-- Model of `LogAnalyzer::add_entry`; the wall-clock timestamp the source
captures is an input of the model. -/
def LogAnalyzer.add_entry (st : LogAnalyzer) (timestamp level message : List Char) :
    LogAnalyzer :=
  ⟨st.entries ++ [⟨timestamp, level, message⟩]⟩

/-- Model of invoking `filter_by_level` as a method call on the store: the
receiver is `&self` and the body only reads `entries`, so the call hands back
the store alongside the result. -/
def filter_by_level_call (st : LogAnalyzer) (level : List Char) :
    LogAnalyzer × List LogEntry :=
  (st, st.filter_by_level level)

/-- Model of invoking `search` as a method call on the store (`&self`
receiver). -/
def search_call (st : LogAnalyzer) (query : List Char) :
    LogAnalyzer × List LogEntry :=
  (st, st.search query)

/-- Model of invoking `get_statistics` as a method call on the store (`&self`
receiver). -/
def get_statistics_call (st : LogAnalyzer) :
    LogAnalyzer × List (List Char × Nat) :=
  (st, st.get_statistics)

/-- Model of invoking `count_total` as a method call on the store (`&self`
receiver). -/
def count_total_call (st : LogAnalyzer) : LogAnalyzer × Nat :=
  (st, st.count_total)

/-- Model of invoking `get_recent` as a method call on the store (`&self`
receiver). -/
def get_recent_call (st : LogAnalyzer) (count : Nat) :
    LogAnalyzer × List LogEntry :=
  (st, st.get_recent count)

/-- Sample record used to instantiate the general theorems. -/
def sampleA : LogEntry :=
  ⟨"2024-01-01 10:00:00".data, "INFO".data, "started".data⟩

/-- Sample record used to instantiate the general theorems. -/
def sampleB : LogEntry :=
  ⟨"2024-01-01 10:00:01".data, "ERROR".data, "failed to connect".data⟩

/-- Sample record used to instantiate the general theorems. -/
def sampleC : LogEntry :=
  ⟨"2024-01-01 10:00:02".data, "INFO".data, "retrying".data⟩

/-- Sample store used to instantiate the general theorems. -/
def sampleStore : LogAnalyzer := ⟨[sampleA, sampleB, sampleC]⟩

/-! ### Helper lemmas: splitting -/
lemma splitOnceChar_append_of_not_mem (sep : Char) (a r : List Char) (h : sep ∉ a) :
    splitOnceChar sep (a ++ sep :: r) = some (a, r) := by
  induction a with
  | nil => simp [splitOnceChar]
  | cons c cs ih =>
      rw [List.mem_cons, not_or] at h
      have hc : ¬ (c = sep) := fun hce => h.1 hce.symm
      simp [splitOnceChar, hc, ih h.2]

lemma splitOnceChar_eq_none_iff (sep : Char) (l : List Char) :
    splitOnceChar sep l = none ↔ l.count sep = 0 := by
  induction l with
  | nil => simp [splitOnceChar]
  | cons c cs ih =>
      by_cases hc : c = sep
      · subst hc
        simp [splitOnceChar, List.count_cons]
      · cases hsplit : splitOnceChar sep cs with
        | none =>
            have h0 := ih.mp hsplit
            simp [splitOnceChar, hc, hsplit, List.count_cons, h0]
        | some p =>
            obtain ⟨p1, p2⟩ := p
            have hne : ¬ cs.count sep = 0 := fun h0 => by
              rw [← ih] at h0
              rw [h0] at hsplit
              exact Option.noConfusion hsplit
            simp [splitOnceChar, hc, hsplit, List.count_cons, hne]

lemma splitOnceChar_count (sep : Char) (l : List Char) :
    ∀ a r, splitOnceChar sep l = some (a, r) → l.count sep = r.count sep + 1 := by
  induction l with
  | nil => intro a r h; simp [splitOnceChar] at h
  | cons c cs ih =>
      intro a r h
      by_cases hc : c = sep
      · subst hc
        simp only [splitOnceChar, if_pos] at h
        obtain ⟨_, hr⟩ := Prod.mk.injEq .. ▸ Option.some.injEq .. ▸ h
        simp [List.count_cons, ← hr]
      · cases hsplit : splitOnceChar sep cs with
        | none =>
            simp only [splitOnceChar, if_neg hc, hsplit] at h
            exact Option.noConfusion h
        | some p =>
            obtain ⟨p1, p2⟩ := p
            simp only [splitOnceChar, if_neg hc, hsplit, Option.some.injEq,
              Prod.mk.injEq] at h
            have hcs := ih p1 p2 hsplit
            simp [List.count_cons, hc, hcs, h.2]

/-- Complete case analysis of `from_line` against the separator count. -/
lemma from_line_cases (line : List Char) :
    (LogEntry.from_line line = none ∧ line.count '|' < 2) ∨
    (∃ e, LogEntry.from_line line = some e ∧ 2 ≤ line.count '|') := by
  cases h1 : splitOnceChar '|' line with
  | none =>
      left
      constructor
      · simp [LogEntry.from_line, splitn3, h1]
      · rw [(splitOnceChar_eq_none_iff '|' line).mp h1]
        omega
  | some p =>
      obtain ⟨a, r⟩ := p
      have hcount1 := splitOnceChar_count '|' line a r h1
      cases h2 : splitOnceChar '|' r with
      | none =>
          left
          constructor
          · simp [LogEntry.from_line, splitn3, h1, h2]
          · rw [(splitOnceChar_eq_none_iff '|' r).mp h2] at hcount1
            omega
      | some q =>
          obtain ⟨b, r2⟩ := q
          have hcount2 := splitOnceChar_count '|' r b r2 h2
          right
          refine ⟨⟨trim a, trim b, trim r2⟩, ?_, by omega⟩
          simp [LogEntry.from_line, splitn3, h1, h2]

lemma from_line_eq_none_iff (line : List Char) :
    LogEntry.from_line line = none ↔ line.count '|' < 2 := by
  rcases from_line_cases line with ⟨h, hc⟩ | ⟨e, h, hc⟩
  · exact ⟨fun _ => hc, fun _ => h⟩
  · rw [h]
    constructor
    · intro hne
      exact Option.noConfusion hne
    · intro hlt
      omega

/-! ### Helper lemmas: trimming -/

lemma dropWhile_head_false (p : Char → Bool) (l : List Char) :
    ∀ a t, l.dropWhile p = a :: t → p a = false := by
  induction l with
  | nil => intro a t h; simp at h
  | cons c cs ih =>
      intro a t h
      rw [List.dropWhile_cons] at h
      by_cases hc : p c = true
      · rw [if_pos hc] at h
        exact ih a t h
      · rw [if_neg hc] at h
        cases h
        simpa using hc

lemma dropWhile_self (p : Char → Bool) (l : List Char) :
    (l.dropWhile p).dropWhile p = l.dropWhile p := by
  cases h : l.dropWhile p with
  | nil => simp
  | cons a t =>
      have ha := dropWhile_head_false p l a t h
      rw [List.dropWhile_cons, ha]
      simp

lemma dropWhile_eq_drop (p : Char → Bool) (l : List Char) :
    ∃ k, l.dropWhile p = l.drop k := by
  induction l with
  | nil => exact ⟨0, rfl⟩
  | cons c cs ih =>
      by_cases hc : p c = true
      · obtain ⟨k, hk⟩ := ih
        exact ⟨k + 1, by rw [List.dropWhile_cons, if_pos hc, hk]; rfl⟩
      · exact ⟨0, by rw [List.dropWhile_cons, if_neg hc]; rfl⟩

/-- Trimming from the right end keeps a prefix of the list. -/
lemma trimEnd_prefix (p : Char → Bool) (u : List Char) :
    ∃ r, u = (u.reverse.dropWhile p).reverse ++ r := by
  obtain ⟨k, hk⟩ := dropWhile_eq_drop p u.reverse
  refine ⟨(u.reverse.take k).reverse, ?_⟩
  rw [hk, ← List.reverse_append, List.take_append_drop, List.reverse_reverse]

lemma trim_dropWhile (s : List Char) :
    (trim s).dropWhile rustIsWhitespace = trim s := by
  cases ht : trim s with
  | nil => simp
  | cons a t =>
      obtain ⟨r, hr⟩ := trimEnd_prefix rustIsWhitespace (s.dropWhile rustIsWhitespace)
      have hs : s.dropWhile rustIsWhitespace = a :: (t ++ r) := by
        rw [hr]
        have : ((s.dropWhile rustIsWhitespace).reverse.dropWhile rustIsWhitespace).reverse
            = a :: t := ht
        rw [this]
        rfl
      have ha := dropWhile_head_false rustIsWhitespace s a (t ++ r) hs
      rw [List.dropWhile_cons, ha]
      simp

lemma trim_idem (s : List Char) : trim (trim s) = trim s := by
  have step : trim (trim s)
      = (((trim s).dropWhile rustIsWhitespace).reverse.dropWhile rustIsWhitespace).reverse :=
    rfl
  have hv : (trim s).reverse
      = (s.dropWhile rustIsWhitespace).reverse.dropWhile rustIsWhitespace := by
    unfold trim
    rw [List.reverse_reverse]
  rw [step, trim_dropWhile, hv, dropWhile_self]
  rfl

/-- Every record produced by `from_line` has trimmed fields. -/
lemma from_line_some_shape (line : List Char) (e : LogEntry)
    (h : LogEntry.from_line line = some e) :
    ∃ t l m, e = ⟨trim t, trim l, trim m⟩ := by
  cases h1 : splitOnceChar '|' line with
  | none => simp [LogEntry.from_line, splitn3, h1] at h
  | some p =>
      obtain ⟨a, r⟩ := p
      cases h2 : splitOnceChar '|' r with
      | none => simp [LogEntry.from_line, splitn3, h1, h2] at h
      | some q =>
          obtain ⟨b, r2⟩ := q
          simp only [LogEntry.from_line, splitn3, h1, h2] at h
          exact ⟨a, b, r2, (Option.some.injEq .. ▸ h).symm⟩

/-! ### Helper lemmas: substring containment and case folding -/

lemma isPrefixOfL_iff (p : List Char) : ∀ l, isPrefixOfL p l = true ↔ ∃ r, l = p ++ r := by
  induction p with
  | nil => intro l; simp [isPrefixOfL]
  | cons a as ih =>
      intro l
      cases l with
      | nil =>
          simp [isPrefixOfL]
      | cons b bs =>
          simp only [isPrefixOfL, Bool.and_eq_true, beq_iff_eq, ih, List.cons_append,
            List.cons.injEq]
          constructor
          · rintro ⟨rfl, r, rfl⟩
            exact ⟨r, rfl, rfl⟩
          · rintro ⟨r, rfl, rfl⟩
            exact ⟨rfl, r, rfl⟩

lemma containsSub_iff (pat : List Char) :
    ∀ hay, containsSub hay pat = true ↔ ∃ l r, hay = l ++ pat ++ r := by
  intro hay
  induction hay with
  | nil =>
      simp only [containsSub, List.isEmpty_iff]
      constructor
      · rintro rfl
        exact ⟨[], [], rfl⟩
      · rintro ⟨l, r, h⟩
        rcases List.append_eq_nil.mp (List.append_eq_nil.mp h.symm).1 with ⟨-, h2⟩
        exact h2
  | cons c rest ih =>
      simp only [containsSub, Bool.or_eq_true, ih, isPrefixOfL_iff]
      constructor
      · rintro (⟨r, hr⟩ | ⟨l, r, hr⟩)
        · exact ⟨[], r, by simpa using hr⟩
        · exact ⟨c :: l, r, by simp [hr]⟩
      · rintro ⟨l, r, hr⟩
        cases l with
        | nil =>
            left
            exact ⟨r, by simpa using hr⟩
        | cons x xs =>
            right
            rw [List.cons_append, List.cons_append, List.cons.injEq] at hr
            exact ⟨xs, r, by simpa using hr.2⟩

lemma containsSub_nil_pat (hay : List Char) : containsSub hay [] = true := by
  cases hay <;> simp [containsSub, isPrefixOfL]

lemma eq_ignore_ascii_case_congr (x l1 l2 : List Char)
    (h : eq_ignore_ascii_case l1 l2 = true) :
    eq_ignore_ascii_case x l1 = eq_ignore_ascii_case x l2 := by
  unfold eq_ignore_ascii_case at *
  rw [beq_iff_eq] at h
  rw [h]

/-! ### Helper lemmas: load and statistics -/

lemma load_foldl_eq (lines : List (List Char)) :
    ∀ es : List LogEntry,
      lines.foldl
        (fun es line =>
          match LogEntry.from_line line with
          | some entry => es ++ [entry]
          | none => es) es
      = es ++ lines.filterMap LogEntry.from_line := by
  induction lines with
  | nil => intro es; simp
  | cons l ls ih =>
      intro es
      rw [List.foldl_cons, List.filterMap_cons]
      cases h : LogEntry.from_line l with
      | none => simp only [h]; rw [ih]
      | some e => simp only [h]; rw [ih, List.append_assoc]; rfl

lemma statUpsert_sum (m : List (List Char × Nat)) (k : List Char) :
    ((statUpsert m k).map Prod.snd).sum = (m.map Prod.snd).sum + 1 := by
  induction m with
  | nil => simp [statUpsert]
  | cons kv rest ih =>
      obtain ⟨k', v⟩ := kv
      by_cases hk : k' = k
      · simp [statUpsert, hk]
        omega
      · simp [statUpsert, hk, ih]
        omega

lemma statUpsert_lookup (m : List (List Char × Nat)) (k q : List Char) :
    lookupCount (statUpsert m k) q
      = lookupCount m q + (if k = q then 1 else 0) := by
  induction m with
  | nil =>
      by_cases hq : k = q <;> simp [statUpsert, lookupCount, hq]
  | cons kv rest ih =>
      obtain ⟨k', v⟩ := kv
      by_cases hk : k' = k
      · subst hk
        by_cases hq : k' = q
        · simp [statUpsert, lookupCount, hq]
        · simp [statUpsert, lookupCount, hq]
      · by_cases hq : k' = q
        · subst hq
          have : ¬ (k = k') := fun he => hk he.symm
          simp [statUpsert, lookupCount, hk, this]
        · simp [statUpsert, lookupCount, hk, hq, ih]

lemma stats_foldl_sum (entries : List LogEntry) :
    ∀ m : List (List Char × Nat),
      ((entries.foldl (fun stats e => statUpsert stats e.level) m).map Prod.snd).sum
        = (m.map Prod.snd).sum + entries.length := by
  induction entries with
  | nil => intro m; simp
  | cons e es ih =>
      intro m
      rw [List.foldl_cons, ih, statUpsert_sum]
      simp
      omega

lemma stats_foldl_lookup (entries : List LogEntry) :
    ∀ (m : List (List Char × Nat)) (k : List Char),
      lookupCount (entries.foldl (fun stats e => statUpsert stats e.level) m) k
        = lookupCount m k + (entries.filter (fun e => e.level == k)).length := by
  induction entries with
  | nil => intro m k; simp
  | cons e es ih =>
      intro m k
      rw [List.foldl_cons, ih, statUpsert_lookup]
      by_cases hk : e.level = k
      · simp [List.filter_cons, hk]
        omega
      · simp [List.filter_cons, hk]

/-! ### Claim theorems -/

/-- C1, counterexample: the round-trip claim fails as stated.  The record
with timestamp `"t"`, level `"L"` and message `" m"` has a message containing
no `|` and no newline, yet parsing its serialization trims the leading space
off the message, so the parsed record differs from the original. -/
theorem roundtrip_fails_on_untrimmed_message :
    ('|' ∉ (" m".data) ∧ '\n' ∉ (" m".data)) ∧
      LogEntry.from_line (LogEntry.to_line ⟨"t".data, "L".data, " m".data⟩)
        ≠ some ⟨"t".data, "L".data, " m".data⟩ := by
  decide

/-- C1, amended: the round trip `from_line (to_line e) = some e` holds for
every record whose message contains no `|` and no newline, provided
additionally that the timestamp and level contain no `|` and that none of
the three fields carries leading or trailing whitespace (parsing trims each
field and splits on the first two `|`, while serialization joins on `|`
without escaping). -/
theorem to_line_from_line_roundtrip (e : LogEntry)
    (hm1 : '|' ∉ e.message) (hm2 : '\n' ∉ e.message)
    (ht1 : '|' ∉ e.timestamp) (hl1 : '|' ∉ e.level)
    (ht : trim e.timestamp = e.timestamp)
    (hl : trim e.level = e.level)
    (hm : trim e.message = e.message) :
    LogEntry.from_line (LogEntry.to_line e) = some e := by
  have h1 := splitOnceChar_append_of_not_mem '|' e.timestamp
    (e.level ++ '|' :: e.message) ht1
  have h2 := splitOnceChar_append_of_not_mem '|' e.level e.message hl1
  simp [LogEntry.from_line, LogEntry.to_line, splitn3, h1, h2, ht, hl, hm]

/-- C1, witness: the amended round trip at a concrete record. -/
theorem to_line_from_line_roundtrip_witness :
    LogEntry.from_line (LogEntry.to_line sampleA) = some sampleA :=
  to_line_from_line_roundtrip sampleA (by decide) (by decide) (by decide)
    (by decide) (by decide) (by decide) (by decide)

/-- C2: parsing fails exactly on the lines with fewer than two `|`
separators (the ones that do not split into three parts), and during load
such a line is skipped silently: removing it from the file leaves the result
unchanged, and load still returns `Ok`. -/
theorem from_line_rejects_iff_lt_two_seps (line : List Char)
    (st : LogAnalyzer) (pre post : List (List Char)) :
    (LogEntry.from_line line = none ↔ line.count '|' < 2) ∧
    (LogEntry.from_line line = none →
      st.load_from_file (some (pre ++ line :: post))
          = st.load_from_file (some (pre ++ post)) ∧
        ∃ st2, st.load_from_file (some (pre ++ line :: post)) = Except.ok st2) := by
  refine ⟨from_line_eq_none_iff line, fun h => ⟨?_, ?_⟩⟩
  · simp only [LogAnalyzer.load_from_file, load_foldl_eq, List.filterMap_append,
      List.filterMap_cons, h]
  · exact ⟨⟨st.entries ++ (pre ++ line :: post).filterMap LogEntry.from_line⟩, by
      simp only [LogAnalyzer.load_from_file, load_foldl_eq]⟩

/-- C2, witness: the malformed line `"2024-01-01 INFO"` is skipped on load
at a concrete store and file. -/
theorem from_line_rejects_witness :
    LogAnalyzer.load_from_file ⟨[]⟩
        (some (["a|b|c".data] ++ "2024-01-01 INFO".data :: []))
      = LogAnalyzer.load_from_file ⟨[]⟩ (some (["a|b|c".data] ++ [])) :=
  ((from_line_rejects_iff_lt_two_seps ("2024-01-01 INFO".data) ⟨[]⟩
    ["a|b|c".data] []).2 (by decide)).1

/-- C7: loading from a path that does not exist returns success and leaves
the store completely unchanged. -/
theorem load_from_file_missing_noop (st : LogAnalyzer) :
    st.load_from_file none = Except.ok st := rfl

/-- C10: parsing succeeds on every line containing at least two `|`
characters with no validation of any field; the line `"||"` yields a record
with three empty fields; and every field of a parsed record carries no
leading or trailing whitespace (it is fixed by `trim`). -/
theorem from_line_no_validation (line : List Char) :
    (2 ≤ line.count '|' → ∃ e, LogEntry.from_line line = some e) ∧
    LogEntry.from_line ('|' :: '|' :: []) = some ⟨[], [], []⟩ ∧
    (∀ e, LogEntry.from_line line = some e →
      trim e.timestamp = e.timestamp ∧ trim e.level = e.level ∧
        trim e.message = e.message) := by
  refine ⟨?_, by decide, ?_⟩
  · intro h2
    rcases from_line_cases line with ⟨hn, hc⟩ | ⟨e, he, hc⟩
    · omega
    · exact ⟨e, he⟩
  · intro e he
    obtain ⟨t, l, m, rfl⟩ := from_line_some_shape line e he
    exact ⟨trim_idem t, trim_idem l, trim_idem m⟩

/-- C10, witness: parsing succeeds on the concrete line `"||"`. -/
theorem from_line_no_validation_witness :
    2 ≤ (('|' :: '|' :: []).count '|') ∧
      ∃ e, LogEntry.from_line ('|' :: '|' :: []) = some e :=
  ⟨by decide, (from_line_no_validation ('|' :: '|' :: [])).1 (by decide)⟩

/-- C3: `get_recent n` is exactly the suffix of the last `min n length`
entries in original order; `get_recent 0` is empty; and when `n` is at
least the total count the whole sequence is returned unchanged. -/
theorem get_recent_spec (st : LogAnalyzer) (n : Nat) :
    st.get_recent n = st.entries.drop (st.entries.length - min n st.entries.length) ∧
    (st.get_recent n).length = min n st.entries.length ∧
    (∃ pre, pre ++ st.get_recent n = st.entries) ∧
    st.get_recent 0 = [] ∧
    (st.count_total ≤ n → st.get_recent n = st.entries) := by
  have heq : st.get_recent n
      = st.entries.drop (st.entries.length - min n st.entries.length) := by
    unfold LogAnalyzer.get_recent
    rcases Nat.lt_or_ge n st.entries.length with h | h
    · rw [if_pos (by omega)]
      congr 1
      omega
    · rw [if_neg (by omega)]
      congr 1
      omega
  refine ⟨heq, ?_, ?_, ?_, ?_⟩
  · rw [heq, List.length_drop]
    omega
  · exact ⟨st.entries.take (st.entries.length - min n st.entries.length), by
      rw [heq, List.take_append_drop]⟩
  · unfold LogAnalyzer.get_recent
    by_cases h0 : st.entries.length > 0
    · rw [if_pos h0, Nat.sub_zero, List.drop_length]
    · have hnil : st.entries = [] := List.length_eq_zero.mp (by omega)
      rw [hnil]
      simp
  · intro h
    rw [heq]
    have hmin : min n st.entries.length = st.entries.length := by
      unfold LogAnalyzer.count_total at h
      omega
    rw [hmin, Nat.sub_self, List.drop_zero]

/-- C3, witness: asking for more than the store holds returns everything. -/
theorem get_recent_spec_witness :
    sampleStore.count_total ≤ 5 ∧ sampleStore.get_recent 5 = sampleStore.entries :=
  ⟨by decide, (get_recent_spec sampleStore 5).2.2.2.2 (by decide)⟩

/-- C4: for every lowercase function `lower` (in particular the program's
`str::to_lowercase`), search keeps exactly the entries whose lower-cased
message contains the lower-cased query as a substring, as a subsequence of
the store (hence in original order); the empty query returns every entry
(given that lower-casing the empty string yields the empty string, as it
does), and a query that matches no message returns the empty list. -/
theorem search_spec (lower : List Char → List Char) (st : LogAnalyzer)
    (q : List Char) :
    (∀ e, e ∈ searchWith lower st q ↔
      e ∈ st.entries ∧ ∃ l r, lower e.message = l ++ lower q ++ r) ∧
    List.Sublist (searchWith lower st q) st.entries ∧
    (lower [] = [] → searchWith lower st [] = st.entries) ∧
    ((∀ e ∈ st.entries, containsSub (lower e.message) (lower q) = false) →
      searchWith lower st q = []) := by
  refine ⟨?_, ?_, ?_, ?_⟩
  · intro e
    simp [searchWith, List.mem_filter, containsSub_iff]
  · exact List.filter_sublist _
  · intro h0
    show st.entries.filter _ = st.entries
    apply List.filter_eq_self.mpr
    intro a _
    rw [h0]
    exact containsSub_nil_pat _
  · intro h
    apply List.filter_eq_nil_iff.mpr
    intro a ha
    simp [h a ha]

/-- C4, witness: instantiating the lowercase parameter with the executable
ASCII fragment on a concrete store, the empty query returns every entry and
a query matching no message returns the empty list. -/
theorem search_spec_witness :
    searchWith to_lowercase_ascii sampleStore [] = sampleStore.entries ∧
    searchWith to_lowercase_ascii sampleStore ("zzz".data) = [] :=
  ⟨(search_spec to_lowercase_ascii sampleStore ("zzz".data)).2.2.1 rfl,
   (search_spec to_lowercase_ascii sampleStore ("zzz".data)).2.2.2 (by decide)⟩

/-- C5: `filter_by_level` keeps exactly the entries whose level equals the
query after ASCII case-folding both sides, as a subsequence of the store
(hence in original order); case-equivalent queries give identical results,
in particular `"error"` and `"ERROR"` on every store. -/
theorem filter_by_level_spec (st : LogAnalyzer) (lvl lvl2 : List Char) :
    (∀ e, e ∈ st.filter_by_level lvl ↔
      e ∈ st.entries ∧ e.level.map toAsciiLower = lvl.map toAsciiLower) ∧
    List.Sublist (st.filter_by_level lvl) st.entries ∧
    (eq_ignore_ascii_case lvl lvl2 = true →
      st.filter_by_level lvl = st.filter_by_level lvl2) ∧
    st.filter_by_level ("error".data) = st.filter_by_level ("ERROR".data) := by
  refine ⟨?_, ?_, ?_, ?_⟩
  · intro e
    simp [LogAnalyzer.filter_by_level, List.mem_filter, eq_ignore_ascii_case]
  · exact List.filter_sublist _
  · intro h
    apply List.filter_congr
    intro e _
    exact eq_ignore_ascii_case_congr e.level lvl lvl2 h
  · apply List.filter_congr
    intro e _
    exact eq_ignore_ascii_case_congr e.level ("error".data) ("ERROR".data) (by decide)

/-- C5, witness: case-equivalent level queries agree on a concrete store. -/
theorem filter_by_level_spec_witness :
    eq_ignore_ascii_case ("Error".data) ("eRRoR".data) = true ∧
    sampleStore.filter_by_level ("Error".data)
      = sampleStore.filter_by_level ("eRRoR".data) :=
  ⟨by decide,
    (filter_by_level_spec sampleStore ("Error".data) ("eRRoR".data)).2.2.1 (by decide)⟩

/-- C6: `get_statistics` groups the entries by their exact level string
(the count stored under any key `k` is the number of entries whose level is
literally `k`), and the counts sum to `count_total`. -/
theorem get_statistics_spec (st : LogAnalyzer) :
    ((st.get_statistics).map Prod.snd).sum = st.count_total ∧
    ∀ k, lookupCount st.get_statistics k
      = (st.entries.filter (fun e => e.level == k)).length := by
  constructor
  · unfold LogAnalyzer.get_statistics LogAnalyzer.count_total
    rw [stats_foldl_sum]
    simp
  · intro k
    unfold LogAnalyzer.get_statistics
    rw [stats_foldl_lookup]
    simp [lookupCount]

/-- C8: loading an existing file appends its parsed records, in file order,
to the end of the current sequence without clearing it; loading the same
file twice starting from an empty store yields exactly twice the entry count
of loading it once. -/
theorem load_from_file_appends (st st1 st2 : LogAnalyzer)
    (lines : List (List Char)) :
    st.load_from_file (some lines)
      = Except.ok ⟨st.entries ++ lines.filterMap LogEntry.from_line⟩ ∧
    ((⟨[]⟩ : LogAnalyzer).load_from_file (some lines) = Except.ok st1 →
      st1.load_from_file (some lines) = Except.ok st2 →
      st2.count_total = 2 * st1.count_total) := by
  have happ : ∀ s : LogAnalyzer, s.load_from_file (some lines)
      = Except.ok ⟨s.entries ++ lines.filterMap LogEntry.from_line⟩ := by
    intro s
    simp only [LogAnalyzer.load_from_file, load_foldl_eq]
  refine ⟨happ st, fun h1 h2 => ?_⟩
  rw [happ] at h1 h2
  injection h1 with h1
  injection h2 with h2
  rw [← h2, ← h1]
  simp [LogAnalyzer.count_total, Nat.two_mul]

/-- C8, witness: loading a one-good-line file twice from empty doubles the
count. -/
theorem load_from_file_appends_witness :
    (⟨[⟨"a".data, "b".data, "c".data⟩, ⟨"a".data, "b".data, "c".data⟩]⟩
        : LogAnalyzer).count_total
      = 2 * (⟨[⟨"a".data, "b".data, "c".data⟩]⟩ : LogAnalyzer).count_total :=
  (load_from_file_appends ⟨[]⟩ ⟨[⟨"a".data, "b".data, "c".data⟩]⟩
      ⟨[⟨"a".data, "b".data, "c".data⟩, ⟨"a".data, "b".data, "c".data⟩]⟩
      ["a|b|c".data]).2 rfl rfl

/-- C9: the five query operations are non-destructive: invoked as method
calls on the store, each hands the store back unchanged next to its result
(they are pure functions of the current entry sequence). -/
theorem query_ops_nondestructive (st : LogAnalyzer) (lvl q : List Char) (n : Nat) :
    (filter_by_level_call st lvl).1 = st ∧
    (search_call st q).1 = st ∧
    (get_statistics_call st).1 = st ∧
    (count_total_call st).1 = st ∧
    (get_recent_call st n).1 = st :=
  ⟨rfl, rfl, rfl, rfl, rfl⟩
